import Mathlib

set_option maxHeartbeats 1000000

/-!
# Verification of the jac-vscode extension core

A shallow embedding of the jac-vscode extension's environment management,
language-server lifecycle, command dispatch, module resolution and
tokenization logic, with theorems checking the design document's claims
against it.

Components whose TypeScript sources are provided (the definition provider
`src/providers/jacDefinitionProvider.ts`, the tokenizer
`src/commands/inspectTokenScopes.ts`, the activation entry point and the
command registration module) are translated directly.  Components that the
provided sources only call into (`EnvManager` in
`src/environment/manager.ts`, `LspManager` in `src/lsp/lsp_manager.ts`, and
`runJacCommandForCurrentFile` in `src/utils.ts`) are modelled from the
design document, as marked on each definition.
-/

namespace JacVscode

/-! ## Environment manager (selection, persistence, status indicator) -/

/-- State of the environment manager.  `persisted` is the durable Selection
stored in global state under the `jacEnvPath` key, `selected` is the
in-memory active environment path (`jacPath`), and `readyFires` counts the
invocations of the registered "environment became ready" callback. -/
structure EnvManagerState where
  persisted : Option String
  selected : Option String
  readyFires : Nat
deriving DecidableEq

/-- Modelled from the spec: `EnvManager.select` (the file
`src/environment/manager.ts` is not among the provided sources).  Per §4.2,
`select(candidate)` validates the candidate, persists it, and fires the
"environment became ready" callback exactly once per transition into
"an environment is usable"; it must not re-fire on redundant reselection of
the already selected environment. -/
def select (valid : String → Bool) (env : String) (s : EnvManagerState) : EnvManagerState :=
  if valid env then
    if s.selected = some env then
      { persisted := some env, selected := some env, readyFires := s.readyFires }
    else
      { persisted := some env, selected := some env, readyFires := s.readyFires + 1 }
  else s

/-- Modelled from the spec: `EnvManager.init` (the file
`src/environment/manager.ts` is not among the provided sources).  Per §4.2,
`init()` loads the persisted Selection; if present it re-validates it, and
if the persisted environment is no longer valid it clears the selection and
falls back to the "no environment" state instead of keeping a stale path. -/
def init (valid : String → Bool) (s : EnvManagerState) : EnvManagerState :=
  match s.persisted with
  | none => { s with selected := none }
  | some p =>
    if valid p then { s with selected := some p }
    else { persisted := none, selected := none, readyFires := s.readyFires }

/-- The marker the status indicator shows in the "no environment" state
(the integration tests check `statusBar.text` for this substring). -/
def noEnvMarker : String := "No Env"

/-- Modelled from the spec: the editor-facing status indicator rendering
(`EnvManager.updateStatusBar`, not among the provided sources).  Per §6 the
short status string reflects the {no-environment, environment-path} states:
`"Jac: No Env"` when nothing is selected, and a string containing the
selected environment's path afterwards. -/
def statusBarText : Option String → String
  | none => "Jac: " ++ noEnvMarker
  | some p => "Jac: " ++ p

/-! ## Command dispatch with two-tier fallback -/

/-- Modelled from the spec: the executable resolution inside
`runJacCommandForCurrentFile` (`src/utils.ts` is not among the provided
sources).  Per §4.4, tier 1 is the currently selected Environment's tool
executable if present on disk, tier 2 the bare tool name `jac` resolved via
the ambient PATH. -/
def resolveJacExecutable (selected : Option String) (onDisk : String → Bool) : String :=
  match selected with
  | some p => if onDisk p then p else "jac"
  | none => "jac"

/-- Modelled from the spec: the textual command line that
`runJacCommandForCurrentFile` sends to the terminal collaborator
(`src/utils.ts` is not among the provided sources).  Per §4.4 the command is
built from the resolved executable, the `run`/`serve` action and the target
file, and it is sent unconditionally: when neither tier resolves, the tier-2
bare name is still dispatched so the shell reports a not-found error. -/
def dispatchCommand (selected : Option String) (onDisk : String → Bool)
    (action file : String) : String :=
  resolveJacExecutable selected onDisk ++ " " ++ action ++ " " ++ file

/-! ## Language-server lifecycle -/

/-- The lifecycle states of a `ServerSession` (§3 of the design). -/
inductive SessionState where
  | stopped
  | starting
  | running
  | stopping
  | crashed
deriving DecidableEq

/-- A session is live when it is `Starting` or `Running`. -/
def SessionState.isLive : SessionState → Bool
  | .starting => true
  | .running => true
  | _ => false

/-- The history of all server sessions ever created, newest first. -/
abbrev LspSessions := List SessionState

/-- Number of sessions that are `Starting` or `Running`. -/
def liveCount (s : LspSessions) : Nat :=
  s.countP SessionState.isLive

/-- Number of sessions that are `Running`. -/
def runningCount (s : LspSessions) : Nat :=
  s.countP (fun st => st == SessionState.running)

/-- Modelled from the spec: `LspManager.start` (the file
`src/lsp/lsp_manager.ts` is not among the provided sources).  Per §4.3 and
§5, `start()` is valid only when no session is live (a start issued while
another session is `Starting` or `Running` is rejected, not interleaved);
on a successful handshake the new session reaches `Running`, on failure it
reaches `Crashed`. -/
def lspStart (ok : Bool) (s : LspSessions) : LspSessions :=
  if s.any SessionState.isLive then s
  else (if ok then SessionState.running else SessionState.crashed) :: s

/-- Modelled from the spec: `LspManager.stop` — idempotent; tears down the
active session and transitions every session to `Stopped` unconditionally,
even from `Crashed`. -/
def lspStop (s : LspSessions) : LspSessions :=
  s.map (fun _ => SessionState.stopped)

/-- Modelled from the spec: `LspManager.restart` — `stop()` then `start()`,
with `stop()` fully completed before `start()` begins (§4.3); per §5 all
lifecycle transitions are serialized through one owner, so n concurrent
restarts execute as n sequential restarts. -/
def lspRestart (ok : Bool) (s : LspSessions) : LspSessions :=
  lspStart ok (lspStop s)

/-- Modelled from the spec: unexpected process exit while `Running` moves
the session to `Crashed`; the manager does not auto-restart. -/
def lspCrash (s : LspSessions) : LspSessions :=
  s.map (fun st => if st = SessionState.running then SessionState.crashed else st)

/-- Embedding of `activate` (the extension entry point among the provided
sources): the env-ready callback passed to the `EnvManager` constructor only
starts an LSP when none exists yet; after `await envManager.init()`, if a
persisted `jacEnvPath` remains in global state, one LSP manager is created
and started.  `init` itself does not fire the ready callback — the sole
firing point is `select` (§4.2) — so activation performs at most one start. -/
def activate (valid : String → Bool) (persisted : Option String) (startOk : Bool) :
    LspSessions :=
  let s := init valid { persisted := persisted, selected := none, readyFires := 0 }
  match s.persisted with
  | some _ => lspStart startOk []
  | none => []

/-- One lifecycle operation on the supervised sessions. -/
inductive LspStep : LspSessions → LspSessions → Prop where
  | start (ok : Bool) (s : LspSessions) : LspStep s (lspStart ok s)
  | stop (s : LspSessions) : LspStep s (lspStop s)
  | restart (ok : Bool) (s : LspSessions) : LspStep s (lspRestart ok s)
  | crash (s : LspSessions) : LspStep s (lspCrash s)

/-- Session histories reachable from extension activation. -/
inductive LspReach : LspSessions → Prop where
  | activated (valid : String → Bool) (persisted : Option String) (ok : Bool) :
      LspReach (activate valid persisted ok)
  | step {s s' : LspSessions} : LspReach s → LspStep s s' → LspReach s'

/-! ## Module resolution (`src/providers/jacDefinitionProvider.ts`) -/

/-- A filesystem path, as a list of segments. -/
abbrev FsPath := List String

/-- `path.resolve(dir, modulePath + ".jac")`: the `.jac` extension lands on
the last segment of the module path. -/
def appendJacExt : List String → List String
  | [] => []
  | [x] => [x ++ ".jac"]
  | x :: xs => x :: appendJacExt xs

/-- JavaScript `split(sep)` on a single-character separator. -/
def splitOnChar (sep : Char) : List Char → List (List Char)
  | [] => [[]]
  | c :: rest =>
    let r := splitOnChar sep rest
    if c = sep then [] :: r
    else
      match r with
      | [] => [[c]]
      | piece :: more => (c :: piece) :: more

/-- `s.endsWith(sfx)`. -/
def strEndsWith (s sfx : String) : Bool := sfx.toList.isSuffixOf s.toList

/-- The segment view of a dotted module name
(`moduleName.replace(/\./g, path.sep)` read back as path segments). -/
def moduleSegments (m : String) : List String :=
  (splitOnChar '.' m.toList).map List.asString

/-- The ten candidate paths probed by `resolveJacModule` before the
recursive scan, in source order: direct / `index.jac` / `__init__.jac`
relative to the importing file's directory, the same three relative to the
workspace root, then direct and `index.jac` under `src` and under `lib`. -/
def searchPathsFor (docDir wsRoot : FsPath) (m : String) : List FsPath :=
  let segs := moduleSegments m
  [ docDir ++ appendJacExt segs,
    docDir ++ segs ++ ["index.jac"],
    docDir ++ segs ++ ["__init__.jac"],
    wsRoot ++ appendJacExt segs,
    wsRoot ++ segs ++ ["index.jac"],
    wsRoot ++ segs ++ ["__init__.jac"],
    wsRoot ++ ["src"] ++ appendJacExt segs,
    wsRoot ++ ["src"] ++ segs ++ ["index.jac"],
    wsRoot ++ ["lib"] ++ appendJacExt segs,
    wsRoot ++ ["lib"] ++ segs ++ ["index.jac"] ]

/-- A directory entry: a plain file, or a subdirectory with a readability
flag (`false` models a directory whose `readdir` throws) and its entries. -/
inductive FsEntry where
  | file (name : String)
  | dir (name : String) (readable : Bool) (entries : List FsEntry)

/-- Directory names the recursive scan skips. -/
def skipDirs : List String :=
  ["node_modules", ".git", ".vscode", "__pycache__", ".pytest_cache"]

mutual
/-- `getAllJacFiles(dir)`: recursively collect the `.jac` files under a
directory located at `p`; a failing `readdir` is caught and yields `[]`
for that directory alone. -/
def getAllJacFiles (p : FsPath) (readable : Bool) (entries : List FsEntry) :
    List FsPath :=
  if readable then jacFilesOfEntries p entries else []
termination_by (sizeOf entries, 1)

/-- The entry loop of `getAllJacFiles`: subdirectories outside `skipDirs`
are scanned in place, files ending in `.jac` are collected. -/
def jacFilesOfEntries (p : FsPath) : List FsEntry → List FsPath
  | [] => []
  | FsEntry.dir name r cs :: rest =>
    (if ¬ skipDirs.contains name then getAllJacFiles (p ++ [name]) r cs else [])
      ++ jacFilesOfEntries p rest
  | FsEntry.file name :: rest =>
    (if strEndsWith name ".jac" then [p ++ [name]] else [])
      ++ jacFilesOfEntries p rest
termination_by l => (sizeOf l, 0)
end

/-- `path.basename(s, '.jac')`: strip a trailing `.jac` unless the whole
name is `.jac`. -/
def basenameDropJac (s : String) : String :=
  if strEndsWith s ".jac" ∧ s ≠ ".jac" then
    (s.toList.take (s.toList.length - 4)).asString
  else s

/-- `path.basename(file, '.jac')` on a segment path. -/
def basenameNoJac (p : FsPath) : String :=
  basenameDropJac (p.getLast?.getD "")

/-- Replace the last path part by its `.jac`-stripped basename, as the scan
does before the structure comparison. -/
def stripLastJacExt : List String → List String
  | [] => []
  | [x] => [basenameDropJac x]
  | x :: xs => x :: stripLastJacExt xs

/-- `pathMatchesModule`: the file's path parts must match the module
segments in count and elementwise order. -/
def pathMatchesModule (pathParts moduleParts : List String) : Bool :=
  if pathParts.length ≠ moduleParts.length then false
  else (List.zip pathParts moduleParts).all (fun q => q.1 == q.2)

/-- `searchJacFileRecursively(rootDir, moduleName)`: list every `.jac` file
under the workspace root, then return the first base-filename match against
the last module segment, else the first directory-structure match of the
relative path against the dotted module segments. -/
def searchJacFileRecursively (rootReadable : Bool) (rootEntries : List FsEntry)
    (rootPath : FsPath) (m : String) : Option FsPath :=
  let baseFileName := (moduleSegments m).getLast?.getD ""
  let files := getAllJacFiles rootPath rootReadable rootEntries
  match files.find? (fun f => basenameNoJac f == baseFileName) with
  | some f => some f
  | none =>
    let moduleParts := moduleSegments m
    files.find? (fun f =>
      pathMatchesModule (stripLastJacExt (f.drop rootPath.length)) moduleParts)

/-- `resolveJacModule`: probe the ten direct candidate locations in order
and return the first that exists; otherwise fall back to the recursive
workspace scan; otherwise `none`. -/
def resolveJacModule (onDisk : FsPath → Bool) (rootReadable : Bool)
    (rootEntries : List FsEntry) (docDir wsRoot : FsPath) (m : String) :
    Option FsPath :=
  match (searchPathsFor docDir wsRoot m).find? onDisk with
  | some p => some p
  | none => searchJacFileRecursively rootReadable rootEntries wsRoot m

/-! ## Import-statement parsing (`matchImportStatement`) -/

/-- JavaScript `\w`: ASCII letters, digits and underscore. -/
def isWordChar (c : Char) : Bool := c.isAlphanum || c = '_'

/-- JavaScript `\s` on the characters source lines contain. -/
def isSpaceChar (c : Char) : Bool := c.isWhitespace

/-- A character of the `[\w\.]` class. -/
def isModChar (c : Char) : Bool := isWordChar c || c = '.'

/-- A character of the `[\w\.\s,]` class. -/
def isMultiModChar (c : Char) : Bool := isModChar c || isSpaceChar c || c = ','

/-- The scan behind `String.prototype.indexOf`: the least position `≥ i`
where `sub` occurs in the remaining text, or `-1`. -/
def jsIndexOfCore (sub : List Char) : List Char → Nat → Int
  | [], i => if sub.isEmpty then (i : Int) else -1
  | c :: rest, i =>
    if sub.isPrefixOf (c :: rest) then (i : Int) else jsIndexOfCore sub rest (i + 1)

/-- `lineText.indexOf(sub, start)` with JavaScript clamping semantics. -/
def jsIndexOf (l sub : List Char) (start : Int) : Int :=
  let i0 := min start.toNat l.length
  jsIndexOfCore sub (l.drop i0) i0

/-- JavaScript `trim()`. -/
def jsTrim (l : List Char) : List Char :=
  ((l.dropWhile isSpaceChar).reverse.dropWhile isSpaceChar).reverse

/-- The pattern `/^(\s*)import\s+([\w\.]+)(\s+as\s+\w+)?/`; returns the
captured module part. -/
def matchP1 (l : List Char) : Option (List Char) :=
  let ws := l.takeWhile isSpaceChar
  let r1 := l.drop ws.length
  if "import".toList.isPrefixOf r1 then
    let r2 := r1.drop 6
    let sp := r2.takeWhile isSpaceChar
    let mod := (r2.drop sp.length).takeWhile isModChar
    if sp.isEmpty || mod.isEmpty then none else some mod
  else none

/-- The pattern `/^(\s*)from\s+([\w\.]+)\s+import/`. -/
def matchP2 (l : List Char) : Option (List Char) :=
  let ws := l.takeWhile isSpaceChar
  let r1 := l.drop ws.length
  if "from".toList.isPrefixOf r1 then
    let r2 := r1.drop 4
    let sp := r2.takeWhile isSpaceChar
    let mod := (r2.drop sp.length).takeWhile isModChar
    let r3 := (r2.drop sp.length).drop mod.length
    let sp2 := r3.takeWhile isSpaceChar
    if sp.isEmpty || mod.isEmpty || sp2.isEmpty then none
    else if "import".toList.isPrefixOf (r3.drop sp2.length) then some mod
    else none
  else none

/-- The pattern `/^(\s*)import\s*\(\s*([\w\.]+)/`. -/
def matchP3 (l : List Char) : Option (List Char) :=
  let ws := l.takeWhile isSpaceChar
  let r1 := l.drop ws.length
  if "import".toList.isPrefixOf r1 then
    let r2 := r1.drop 6
    let r3 := r2.drop (r2.takeWhile isSpaceChar).length
    match r3 with
    | '(' :: r4 =>
      let r5 := r4.drop (r4.takeWhile isSpaceChar).length
      let mod := r5.takeWhile isModChar
      if mod.isEmpty then none else some mod
    | _ => none
  else none

/-- The pattern `/^(\s*)import\s+([\w\.\s,]+)/`, returning
`(match[0], match[2])`.  The character class includes whitespace, so when
no class character follows the whitespace run the regex backtracks `\s+`
to all but one space and the capture holds the last space. -/
def matchP4 (l : List Char) : Option (List Char × List Char) :=
  let ws := l.takeWhile isSpaceChar
  let r1 := l.drop ws.length
  if "import".toList.isPrefixOf r1 then
    let r2 := r1.drop 6
    let sp := r2.takeWhile isSpaceChar
    let body := (r2.drop sp.length).takeWhile isMultiModChar
    if sp.isEmpty then none
    else if ¬ body.isEmpty then
      some (ws ++ "import".toList ++ sp ++ body, body)
    else if sp.length ≥ 2 then
      some (ws ++ "import".toList ++ sp, sp.drop (sp.length - 1))
    else none
  else none

/-- The multi-import branch: walk the comma-separated modules looking for
the one whose next occurrence (from `currentPos` on) spans the cursor;
when none does, keep the full capture. -/
def selectMultiModule (lineText : List Char) (characterPos : Int)
    (modulePart : List Char) : List (List Char) → Int → List Char
  | [], _ => modulePart
  | piece :: rest, currentPos =>
    let m := jsTrim piece
    let moduleStart := jsIndexOf lineText m currentPos
    let moduleEnd := moduleStart + m.length
    if characterPos ≥ moduleStart ∧ characterPos ≤ moduleEnd then m
    else selectMultiModule lineText characterPos modulePart rest moduleEnd

/-- `moduleSegments.slice(0, i + 1).join('.')`. -/
def joinDots : List (List Char) → List Char
  | [] => []
  | [s] => s
  | s :: rest => s ++ '.' :: joinDots rest

/-- The dotted-segment walk: return the module path up to the segment whose
span (inclusive at both ends) contains the cursor. -/
def segmentAtCursor (characterPos : Int) (acc : List (List Char)) :
    List (List Char) → Int → Option (List Char)
  | [], _ => none
  | seg :: rest, currentPos =>
    let segmentEnd := currentPos + seg.length
    if characterPos ≥ currentPos ∧ characterPos ≤ segmentEnd then
      some (joinDots (acc ++ [seg]))
    else segmentAtCursor characterPos (acc ++ [seg]) rest (segmentEnd + 1)

/-- The common body run once a pattern matched: locate the module part
with `lineText.indexOf`, check the cursor lies in its span, then walk the
dotted segments. -/
def cursorModule (lineText : List Char) (characterPos : Int)
    (modulePart : List Char) : Option (List Char) :=
  let importStart := jsIndexOf lineText modulePart 0
  let importEnd := importStart + modulePart.length
  if characterPos ≥ importStart ∧ characterPos ≤ importEnd then
    segmentAtCursor characterPos [] (splitOnChar '.' modulePart) importStart
  else none

/-- `matchImportStatement(lineText, characterPos)`: try the four import
patterns in order; for the multi-import pattern first narrow `match[2]` to
the comma-separated module under the cursor; a pattern whose cursor check
fails falls through to the next pattern. -/
def matchImportStatement (lineText : List Char) (characterPos : Int) :
    Option (List Char) :=
  (match matchP1 lineText with
   | some mod => cursorModule lineText characterPos mod
   | none => none).orElse (fun _ =>
  (match matchP2 lineText with
   | some mod => cursorModule lineText characterPos mod
   | none => none).orElse (fun _ =>
  (match matchP3 lineText with
   | some mod => cursorModule lineText characterPos mod
   | none => none).orElse (fun _ =>
  match matchP4 lineText with
  | some (m0, m2) =>
    cursorModule lineText characterPos
      (selectMultiModule lineText characterPos m2 (splitOnChar ',' m2)
        (jsIndexOf m0 m2 0))
  | none => none)))

/-! ## Tokenization (`src/commands/inspectTokenScopes.ts`) -/

/-- A raw token as returned by the TextMate `tokenizeLine`. -/
structure RawToken where
  startIndex : Nat
  endIndex : Nat
  scopes : List String
deriving DecidableEq

/-- A tokenized token with 1-based position info (`TokenInfo`). -/
structure TokenInfo where
  text : List Char
  line : Nat
  startCol : Nat
  endCol : Nat
  scopes : List String
deriving DecidableEq

/-- JavaScript `line.substring(a, b)`: clamp both indices to the length
and swap them when out of order. -/
def jsSubstring (l : List Char) (a b : Nat) : List Char :=
  let a' := min a l.length
  let b' := min b l.length
  (l.drop (min a' b')).take (max a' b' - min a' b')

/-- A TextMate grammar as consumed by `tokenizeContent`: `tokenizeLine`
takes a line and the rule stack left by the previous line. -/
structure TmGrammar (σ : Type) where
  initial : σ
  tokenizeLine : List Char → σ → List RawToken × σ

/-- The location key `"line:startCol-endCol"` (1-based). -/
def locKey (line startCol endCol : Nat) : String :=
  Nat.repr line ++ ":" ++ Nat.repr startCol ++ "-" ++ Nat.repr endCol

/-- The `byLocation` map, as an association list with JavaScript `Map.set`
semantics: replace the entry when the key is already present. -/
def mapSet (m : List (String × TokenInfo)) (k : String) (v : TokenInfo) :
    List (String × TokenInfo) :=
  if m.any (fun kv => kv.1 == k) then
    m.map (fun kv => if kv.1 == k then (k, v) else kv)
  else m ++ [(k, v)]

/-- The result of tokenization: the location-keyed map and the token
array in order. -/
structure TokenizeResult where
  byLocation : List (String × TokenInfo)
  tokens : List TokenInfo
deriving DecidableEq

/-- `getTokenByLocation(result, line, startCol, endCol)`. -/
def getTokenByLocation (r : TokenizeResult) (line startCol endCol : Nat) :
    Option TokenInfo :=
  (r.byLocation.find? (fun kv => kv.1 == locKey line startCol endCol)).map (fun kv => kv.2)

/-- The token loop of `tokenizeContent` for one line: skip
whitespace-only token texts, convert to 1-based coordinates, and record
each kept token in both structures. -/
def recordLineTokens (line : List Char) (lineNumber : Nat) :
    List RawToken → TokenizeResult → TokenizeResult
  | [], acc => acc
  | t :: rest, acc =>
    let tokenText := jsSubstring line t.startIndex t.endIndex
    if (jsTrim tokenText).isEmpty then recordLineTokens line lineNumber rest acc
    else
      let startCol := t.startIndex + 1
      let endCol := t.endIndex + 1
      let info : TokenInfo :=
        { text := tokenText, line := lineNumber, startCol := startCol,
          endCol := endCol, scopes := t.scopes }
      recordLineTokens line lineNumber rest
        { byLocation := mapSet acc.byLocation (locKey lineNumber startCol endCol) info,
          tokens := acc.tokens ++ [info] }

/-- The line loop of `tokenizeContent`, threading the rule stack. -/
def tokenizeLinesFrom {σ : Type} (g : TmGrammar σ) :
    List (List Char) → Nat → σ → TokenizeResult → TokenizeResult
  | [], _, _, acc => acc
  | line :: rest, lineIndex, ruleStack, acc =>
    let out := g.tokenizeLine line ruleStack
    tokenizeLinesFrom g rest (lineIndex + 1) out.2
      (recordLineTokens line (lineIndex + 1) out.1 acc)

/-- `tokenizeContent`: split the content on newlines and tokenize line by
line, producing the token array and the location-keyed map. -/
def tokenizeContent {σ : Type} (g : TmGrammar σ) (content : List Char) :
    TokenizeResult :=
  tokenizeLinesFrom g (splitOnChar '\n' content) 0 g.initial
    { byLocation := [], tokens := [] }

/-- The location key of a recorded token. -/
def tokenKey (t : TokenInfo) : String := locKey t.line t.startCol t.endCol

/-- The invariant carried through tokenization: `byLocation` is exactly the
key-indexed view of `tokens`, the keys are pairwise distinct, and every
recorded token has non-whitespace text and 1-based coordinates with line
number at most `n`. -/
def ResultInv (n : Nat) (r : TokenizeResult) : Prop :=
  r.byLocation = r.tokens.map (fun t => (tokenKey t, t)) ∧
  (r.tokens.map tokenKey).Nodup ∧
  (∀ t ∈ r.tokens, (jsTrim t.text).isEmpty = false ∧
    1 ≤ t.line ∧ t.line ≤ n ∧ 1 ≤ t.startCol ∧ 1 ≤ t.endCol)

/-- The decimal digits of a natural number, most significant first
(a structurally transparent rendering of `Nat.repr`). -/
def digitsRec (n : Nat) : List Char :=
  if h : n < 10 then [Nat.digitChar n]
  else
    have : n / 10 < n := Nat.div_lt_self (by omega) (by omega)
    digitsRec (n / 10) ++ [Nat.digitChar (n % 10)]

/-- The numeric value of a decimal digit character. -/
def charDigitVal (c : Char) : Nat := c.toNat - 48

/-- Read a digit string back as a number, from an accumulator. -/
def digitsValFrom (a : Nat) (l : List Char) : Nat :=
  l.foldl (fun acc c => acc * 10 + charDigitVal c) a

/-- A concrete grammar used to exercise `tokenizeContent`: every line
yields the spans `[0,2)`, `[2,3)` and `[3,7)`. -/
def demoGrammar : TmGrammar Unit where
  initial := ()
  tokenizeLine := fun _ _ =>
    ([{ startIndex := 0, endIndex := 2, scopes := ["source.jac"] },
      { startIndex := 2, endIndex := 3, scopes := ["source.jac"] },
      { startIndex := 3, endIndex := 7,
        scopes := ["source.jac", "keyword.control.jac"] }], ())

/-- The token `demoGrammar` produces for the span `[0,2)` of the content
`ab cdef`. -/
def demoToken : TokenInfo :=
  { text := "ab".toList, line := 1, startCol := 1, endCol := 3,
    scopes := ["source.jac"] }

/-! ## Theorems: environment selection (C2, C4, C9) -/

/-- C2.  For every environment `env`, calling `select env` twice in
succession fires the "environment became ready" callback exactly once when
`env` was not already selected; redundant reselection of the already
selected environment never re-fires the callback; and a second `select` of
the same environment leaves the state exactly as after the first. -/
theorem select_ready_fires_once :
    (∀ (valid : String → Bool) (env : String) (s : EnvManagerState),
      valid env = true → s.selected ≠ some env →
      (select valid env (select valid env s)).readyFires = s.readyFires + 1) ∧
    (∀ (valid : String → Bool) (env : String) (s : EnvManagerState),
      s.selected = some env →
      (select valid env s).readyFires = s.readyFires) ∧
    (∀ (valid : String → Bool) (env : String) (s : EnvManagerState),
      select valid env (select valid env s) = select valid env s) := by
  refine ⟨?_, ?_, ?_⟩
  · intro valid env s hv hne
    simp [select, hv, hne]
  · intro valid env s hsel
    by_cases hv : valid env = true <;> simp [select, hv, hsel]
  · intro valid env s
    by_cases hv : valid env = true
    · by_cases hsel : s.selected = some env <;> simp [select, hv, hsel]
    · simp [select, hv]

/-- Witness for C2 at a concrete environment and state. -/
theorem select_ready_fires_once_witness :
    (select (fun _ => true) ".venv/bin/jac"
      (select (fun _ => true) ".venv/bin/jac"
        { persisted := none, selected := none, readyFires := 0 })).readyFires = 1 := by
  exact select_ready_fires_once.1 (fun _ => true) ".venv/bin/jac"
    { persisted := none, selected := none, readyFires := 0 } rfl (by simp)

/-- C4.  After `init`: a persisted selection that is still valid becomes the
active environment again (round trip); a persisted selection that is no
longer valid is cleared, leaving the "no environment" state; the active
environment after `init` is always valid (never a stale path); and a
selection made by `select` survives an `init` against an unchanged
filesystem. -/
theorem init_round_trip_and_clears_stale :
    (∀ (valid : String → Bool) (p : String) (s : EnvManagerState),
      s.persisted = some p → valid p = true →
      (init valid s).selected = some p ∧ (init valid s).persisted = some p) ∧
    (∀ (valid : String → Bool) (p : String) (s : EnvManagerState),
      s.persisted = some p → valid p = false →
      (init valid s).selected = none ∧ (init valid s).persisted = none) ∧
    (∀ (valid : String → Bool) (s : EnvManagerState) (q : String),
      (init valid s).selected = some q → valid q = true) ∧
    (∀ (valid : String → Bool) (env : String) (s : EnvManagerState),
      valid env = true →
      (init valid (select valid env s)).selected = some env) := by
  refine ⟨?_, ?_, ?_, ?_⟩
  · intro valid p s hp hv
    simp [init, hp, hv]
  · intro valid p s hp hv
    simp [init, hp, hv]
  · intro valid s q h
    match hp : s.persisted with
    | none => simp [init, hp] at h
    | some p =>
      by_cases hv : valid p = true
      · simp [init, hp, hv] at h
        subst h; exact hv
      · simp [init, hp, hv] at h
  · intro valid env s hv
    have hpers : (select valid env s).persisted = some env := by
      by_cases hsel : s.selected = some env <;> simp [select, hv, hsel]
    simp [init, hpers, hv]

/-- Witness for C4 at a concrete filesystem and state. -/
theorem init_round_trip_and_clears_stale_witness :
    ((init (fun p => p = "/ws/.venv/bin/jac")
      { persisted := some "/ws/.venv/bin/jac", selected := none,
        readyFires := 0 }).selected = some "/ws/.venv/bin/jac") ∧
    ((init (fun _ => false)
      { persisted := some "/gone/jac", selected := some "/gone/jac",
        readyFires := 1 }).selected = none) := by
  constructor
  · exact (init_round_trip_and_clears_stale.1 (fun p => p = "/ws/.venv/bin/jac")
      "/ws/.venv/bin/jac" _ rfl (by simp)).1
  · exact (init_round_trip_and_clears_stale.2.1 (fun _ => false)
      "/gone/jac" _ rfl rfl).1

/-- If the head of `m` does not occur in `pre` at all, then `m` can only be
an infix of `pre ++ p` by being an infix of `p`. -/
theorem not_infix_append_of_head_notin {p : List Char} (pre : List Char)
    (c : Char) (m' : List Char) (hc : c ∉ pre) (hp : ¬ (c :: m') <:+: p) :
    ¬ (c :: m') <:+: pre ++ p := by
  rintro ⟨s, t, hst⟩
  by_cases hlen : pre.length ≤ s.length
  · have hspre : s <+: pre ++ p := ⟨(c :: m') ++ t, by simpa using hst⟩
    have hpre : pre <+: s :=
      List.prefix_of_prefix_length_le (List.prefix_append pre p) hspre hlen
    obtain ⟨s', rfl⟩ := hpre
    apply hp
    refine ⟨s', t, ?_⟩
    have := hst
    simp only [List.append_assoc] at this ⊢
    exact (List.append_cancel_left this)
  · push_neg at hlen
    have h1 : (pre ++ p)[s.length]? = some c := by
      rw [← hst]
      rw [List.append_assoc]
      rw [List.getElem?_append_right (Nat.le_refl s.length)]
      simp
    rw [List.getElem?_append_left hlen] at h1
    exact hc (List.getElem?_mem h1)

/-- C9.  The status indicator is unambiguous: with no environment selected
its text contains the `"No Env"` marker; after selecting an environment the
text contains that environment's path; and for any path not itself
containing the marker (as every real executable path is), the selected text
no longer contains the marker, so no reachable state reads as both. -/
theorem status_text_unambiguous :
    (noEnvMarker.toList <:+: (statusBarText none).toList) ∧
    (∀ p : String, p.toList <:+: (statusBarText (some p)).toList) ∧
    (∀ p : String, ¬ noEnvMarker.toList <:+: p.toList →
      ¬ noEnvMarker.toList <:+: (statusBarText (some p)).toList) := by
  have hsome : ∀ p : String,
      (statusBarText (some p)).toList = "Jac: ".toList ++ p.toList := by
    intro p
    simp [statusBarText, String.toList, String.data_append]
  refine ⟨by decide, ?_, ?_⟩
  · intro p
    rw [hsome]
    exact (List.suffix_append _ _).isInfix
  · intro p hp
    rw [hsome]
    have hmarker : noEnvMarker.toList = 'N' :: "o Env".toList := by decide
    rw [hmarker] at hp ⊢
    exact not_infix_append_of_head_notin "Jac: ".toList 'N' "o Env".toList
      (by decide) hp

/-- Witness for C9 at a concrete path. -/
theorem status_text_unambiguous_witness :
    ¬ noEnvMarker.toList <:+: (statusBarText (some "/ws/.venv/bin/jac")).toList := by
  exact status_text_unambiguous.2.2 "/ws/.venv/bin/jac" (by decide)

/-! ## Theorems: command dispatch (C3) -/

/-- C3.  Executable resolution is a two-tier fallback: the selected
environment's tool executable when it is present on disk, otherwise the
bare tool name `jac` for the ambient PATH; and even when no selected
executable exists and `jac` is not on the PATH either, the dispatched
command is still built from the tier-2 bare name — it is never
suppressed. -/
theorem dispatch_two_tier_fallback :
    (∀ (onDisk : String → Bool) (p : String), onDisk p = true →
      resolveJacExecutable (some p) onDisk = p) ∧
    (∀ (onDisk : String → Bool) (p : String), onDisk p = false →
      resolveJacExecutable (some p) onDisk = "jac") ∧
    (∀ onDisk : String → Bool, resolveJacExecutable none onDisk = "jac") ∧
    (∀ (sel : Option String) (onDisk : String → Bool) (action file : String),
      (∀ p, sel = some p → onDisk p = false) → onDisk "jac" = false →
      dispatchCommand sel onDisk action file =
        "jac" ++ " " ++ action ++ " " ++ file) := by
  refine ⟨?_, ?_, ?_, ?_⟩
  · intro onDisk p h; simp [resolveJacExecutable, h]
  · intro onDisk p h; simp [resolveJacExecutable, h]
  · intro onDisk; rfl
  · intro sel onDisk action file hsel hjac
    cases sel with
    | none => simp [dispatchCommand, resolveJacExecutable]
    | some p => simp [dispatchCommand, resolveJacExecutable, hsel p rfl]

/-- Witness for C3: with the venv executable gone and `jac` absent from
the PATH, the dispatched command still carries the bare name. -/
theorem dispatch_two_tier_fallback_witness :
    dispatchCommand (some "/ws/.venv/bin/jac") (fun _ => false) "run"
      "/ws/sample.jac" = "jac run /ws/sample.jac" := by
  have h := dispatch_two_tier_fallback.2.2.2 (some "/ws/.venv/bin/jac")
    (fun _ => false) "run" "/ws/sample.jac" (fun _ _ => rfl) rfl
  simpa using h

/-! ## Theorems: language-server lifecycle (C1) -/

/-- Stopping leaves no live session. -/
theorem liveCount_lspStop (s : LspSessions) : liveCount (lspStop s) = 0 := by
  simp [liveCount, lspStop, List.countP_map, Function.comp, SessionState.isLive]

/-- Starting preserves "at most one live session". -/
theorem liveCount_lspStart_le (ok : Bool) (s : LspSessions)
    (h : liveCount s ≤ 1) : liveCount (lspStart ok s) ≤ 1 := by
  by_cases hl : s.any SessionState.isLive = true
  · simpa [lspStart, hl] using h
  · have hl' : s.any SessionState.isLive = false := by
      cases hany : s.any SessionState.isLive
      · rfl
      · exact absurd hany hl
    have h0 : List.countP SessionState.isLive s = 0 :=
      List.countP_eq_zero.mpr (List.any_eq_false.mp hl')
    cases ok <;>
      simp [lspStart, hl', liveCount, List.countP_cons, SessionState.isLive, h0]

/-- A restart that starts successfully leaves exactly one live session,
and it is `Running`. -/
theorem lspRestart_true_counts (s : LspSessions) :
    liveCount (lspRestart true s) = 1 ∧ runningCount (lspRestart true s) = 1 := by
  have hstopped : ∀ st ∈ lspStop s, st = SessionState.stopped := by
    intro st hst
    rcases List.mem_map.mp hst with ⟨a, _, rfl⟩
    rfl
  have hany : (lspStop s).any SessionState.isLive = false := by
    simp only [List.any_eq_false]
    intro st hst
    rw [hstopped st hst]
    simp [SessionState.isLive]
  have hform : lspRestart true s = SessionState.running :: lspStop s := by
    simp [lspRestart, lspStart, hany]
  constructor
  · rw [hform]
    simp [liveCount, List.countP_cons, SessionState.isLive, lspStop,
      List.countP_map, Function.comp]
  · rw [hform]
    simp [runningCount, List.countP_cons, lspStop, List.countP_map, Function.comp]

/-- A crash never increases the number of live sessions. -/
theorem liveCount_lspCrash_le (s : LspSessions) :
    liveCount (lspCrash s) ≤ liveCount s := by
  simp only [liveCount, lspCrash, List.countP_map]
  apply List.countP_mono_left
  intro st _ h
  cases st <;> simp_all [SessionState.isLive, Function.comp]

/-- One lifecycle operation preserves "at most one live session". -/
theorem liveCount_step_le {s s' : LspSessions} (hstep : LspStep s s')
    (h : liveCount s ≤ 1) : liveCount s' ≤ 1 := by
  cases hstep with
  | start ok => exact liveCount_lspStart_le ok s h
  | stop => exact (liveCount_lspStop s) ▸ Nat.zero_le 1
  | restart ok =>
    cases ok
    · exact liveCount_lspStart_le false (lspStop s)
        ((liveCount_lspStop s) ▸ Nat.zero_le 1)
    · exact le_of_eq (lspRestart_true_counts s).1
  | crash => exact le_trans (liveCount_lspCrash_le s) h

/-- Activation creates at most one live session. -/
theorem liveCount_activate_le (valid : String → Bool) (persisted : Option String)
    (ok : Bool) : liveCount (activate valid persisted ok) ≤ 1 := by
  have hone : liveCount (lspStart ok []) ≤ 1 :=
    liveCount_lspStart_le ok [] (by simp [liveCount])
  cases persisted with
  | none => simp [activate, init, liveCount]
  | some p =>
    by_cases hv : valid p = true
    · simpa [activate, init, hv] using hone
    · simp [activate, init, hv, liveCount]

/-- C1.  In every reachable session history at most one server session is
`Starting` or `Running`; n serialized `restart()` calls (n ≥ 1) leave
exactly one `Running` session; and the activation path — including the one
with a persisted selection — creates at most one live session. -/
theorem lsp_single_instance :
    (∀ s : LspSessions, LspReach s → liveCount s ≤ 1) ∧
    (∀ (s : LspSessions) (n : Nat), 1 ≤ n →
      liveCount ((lspRestart true)^[n] s) = 1 ∧
      runningCount ((lspRestart true)^[n] s) = 1) ∧
    (∀ (valid : String → Bool) (persisted : Option String) (ok : Bool),
      liveCount (activate valid persisted ok) ≤ 1) := by
  refine ⟨?_, ?_, liveCount_activate_le⟩
  · intro s hreach
    induction hreach with
    | activated valid persisted ok => exact liveCount_activate_le valid persisted ok
    | step _ hstep ih => exact liveCount_step_le hstep ih
  · intro s n hn
    obtain ⟨m, rfl⟩ := Nat.exists_eq_add_of_le hn
    rw [Nat.add_comm, Function.iterate_succ_apply']
    exact lspRestart_true_counts _

/-- Witness for C1: three serialized restarts from a crashed state leave
exactly one running session, and a crash after activation with a persisted
selection keeps the invariant. -/
theorem lsp_single_instance_witness :
    liveCount ((lspRestart true)^[3]
      [SessionState.crashed, SessionState.stopped]) = 1 ∧
    runningCount ((lspRestart true)^[3]
      [SessionState.crashed, SessionState.stopped]) = 1 ∧
    liveCount (lspCrash (activate (fun _ => true) (some "/ws/.venv/bin/jac") true)) ≤ 1 := by
  refine ⟨(lsp_single_instance.2.1 _ 3 (by omega)).1,
    (lsp_single_instance.2.1 _ 3 (by omega)).2, ?_⟩
  exact lsp_single_instance.1 _
    (LspReach.step
      (LspReach.activated (fun _ => true) (some "/ws/.venv/bin/jac") true)
      (LspStep.crash _))

/-! ## Theorems: module resolution (C5, C6, C8) -/

/-- `find?` returns the element at the first position satisfying the
predicate: if position `i` holds `c`, `c` satisfies `p`, and nothing
before position `i` does, the search returns `c`. -/
theorem find?_first_hit {α : Type} (p : α → Bool) :
    ∀ (l : List α) (i : Nat) (c : α),
      l[i]? = some c → p c = true →
      ((l.take i).all fun x => !p x) = true →
      l.find? p = some c := by
  intro l
  induction l with
  | nil => intro i c h; simp at h
  | cons a t ih =>
    intro i c hget hp hprev
    cases i with
    | zero =>
      rw [List.getElem?_cons_zero] at hget
      obtain rfl : a = c := by injection hget
      rw [List.find?_cons_of_pos _ hp]
    | succ i' =>
      rw [List.getElem?_cons_succ] at hget
      rw [List.take_succ_cons, List.all_cons, Bool.and_eq_true] at hprev
      have ha : p a = false := by
        have h1 := hprev.1
        simp only [Bool.not_eq_true'] at h1
        exact h1
      rw [List.find?_cons_of_neg _ (by simp [ha])]
      exact ih i' c hget hp hprev.2

/-- C5.  `resolveJacModule` probes the candidate locations in exactly the
priority order of `searchPathsFor` — the three variants next to the
importing file, the three at the workspace root, then the `src`/`lib`
locations — returning the first existing hit; when every direct candidate
is exhausted it falls back to the recursive workspace scan, and when that
also fails it returns `none`. -/
theorem resolveJacModule_priority_order :
    (∀ (onDisk : FsPath → Bool) (rootReadable : Bool) (rootEntries : List FsEntry)
        (docDir wsRoot : FsPath) (m : String) (i : Nat) (c : FsPath),
      (searchPathsFor docDir wsRoot m)[i]? = some c →
      onDisk c = true →
      (((searchPathsFor docDir wsRoot m).take i).all fun x => !onDisk x) = true →
      resolveJacModule onDisk rootReadable rootEntries docDir wsRoot m = some c) ∧
    (∀ (onDisk : FsPath → Bool) (rootReadable : Bool) (rootEntries : List FsEntry)
        (docDir wsRoot : FsPath) (m : String),
      (∀ c ∈ searchPathsFor docDir wsRoot m, onDisk c = false) →
      resolveJacModule onDisk rootReadable rootEntries docDir wsRoot m =
        searchJacFileRecursively rootReadable rootEntries wsRoot m) ∧
    (∀ (onDisk : FsPath → Bool) (rootReadable : Bool) (rootEntries : List FsEntry)
        (docDir wsRoot : FsPath) (m : String),
      (∀ c ∈ searchPathsFor docDir wsRoot m, onDisk c = false) →
      searchJacFileRecursively rootReadable rootEntries wsRoot m = none →
      resolveJacModule onDisk rootReadable rootEntries docDir wsRoot m = none) := by
  have hfallback : ∀ (onDisk : FsPath → Bool) (rootReadable : Bool)
      (rootEntries : List FsEntry) (docDir wsRoot : FsPath) (m : String),
      (∀ c ∈ searchPathsFor docDir wsRoot m, onDisk c = false) →
      resolveJacModule onDisk rootReadable rootEntries docDir wsRoot m =
        searchJacFileRecursively rootReadable rootEntries wsRoot m := by
    intro onDisk rootReadable rootEntries docDir wsRoot m hall
    have hnone : (searchPathsFor docDir wsRoot m).find? onDisk = none :=
      List.find?_eq_none.mpr (fun c hc => by simp [hall c hc])
    simp [resolveJacModule, hnone]
  refine ⟨?_, hfallback, ?_⟩
  · intro onDisk rootReadable rootEntries docDir wsRoot m i c hget hp hprev
    have hfind := find?_first_hit onDisk (searchPathsFor docDir wsRoot m) i c hget hp hprev
    simp [resolveJacModule, hfind]
  · intro onDisk rootReadable rootEntries docDir wsRoot m hall hscan
    rw [hfallback onDisk rootReadable rootEntries docDir wsRoot m hall]
    exact hscan

/-- Witness for C5, the spec's Scenario A: the workspace holds
`src/pkg/mod.jac` and nothing else, so resolution falls through the six
earlier candidates and hits the seventh (`src`-relative direct file). -/
theorem resolveJacModule_priority_order_witness :
    resolveJacModule (fun p => p == ["ws", "src", "pkg", "mod.jac"]) true []
      ["ws", "app"] ["ws"] "pkg.mod" = some ["ws", "src", "pkg", "mod.jac"] := by
  exact resolveJacModule_priority_order.1
    (fun p => p == ["ws", "src", "pkg", "mod.jac"]) true []
    ["ws", "app"] ["ws"] "pkg.mod" 6 ["ws", "src", "pkg", "mod.jac"]
    (by decide) (by decide) (by decide)

/-- Lists are equal exactly when they have the same length and agree
pairwise. -/
theorem zip_all_eq_iff :
    ∀ (l₁ l₂ : List String), l₁.length = l₂.length →
      ((((l₁.zip l₂).all fun q => q.1 == q.2) = true) ↔ l₁ = l₂) := by
  intro l₁
  induction l₁ with
  | nil =>
    intro l₂ hlen
    cases l₂ with
    | nil => simp
    | cons b t => simp at hlen
  | cons a t ih =>
    intro l₂ hlen
    cases l₂ with
    | nil => simp at hlen
    | cons b t₂ =>
      simp only [List.zip_cons_cons, List.all_cons, Bool.and_eq_true, beq_iff_eq]
      rw [ih t₂ (by simpa using hlen)]
      simp

/-- C6.  The recursive scan matches first by base filename against the last
module segment, and only afterwards by directory structure, where the
structure check accepts exactly the paths whose segments equal the dotted
module segments in count and order — longer, shorter or reordered paths are
never accepted. -/
theorem recursive_scan_basename_then_structure :
    (∀ pathParts moduleParts : List String,
      pathMatchesModule pathParts moduleParts = true ↔ pathParts = moduleParts) ∧
    (∀ (rootReadable : Bool) (rootEntries : List FsEntry) (rootPath : FsPath)
        (m : String) (i : Nat) (f : FsPath),
      (getAllJacFiles rootPath rootReadable rootEntries)[i]? = some f →
      basenameNoJac f = (moduleSegments m).getLast?.getD "" →
      (((getAllJacFiles rootPath rootReadable rootEntries).take i).all
        fun g => !(basenameNoJac g == (moduleSegments m).getLast?.getD "")) = true →
      searchJacFileRecursively rootReadable rootEntries rootPath m = some f) ∧
    (∀ (rootReadable : Bool) (rootEntries : List FsEntry) (rootPath : FsPath)
        (m : String),
      (∀ f ∈ getAllJacFiles rootPath rootReadable rootEntries,
        basenameNoJac f ≠ (moduleSegments m).getLast?.getD "") →
      searchJacFileRecursively rootReadable rootEntries rootPath m =
        (getAllJacFiles rootPath rootReadable rootEntries).find? (fun f =>
          pathMatchesModule (stripLastJacExt (f.drop rootPath.length))
            (moduleSegments m))) := by
  refine ⟨?_, ?_, ?_⟩
  · intro pathParts moduleParts
    unfold pathMatchesModule
    by_cases hlen : pathParts.length = moduleParts.length
    · rw [if_neg (by simp [hlen])]
      exact zip_all_eq_iff pathParts moduleParts hlen
    · rw [if_pos hlen]
      exact ⟨fun h => absurd h (by simp),
        fun h => absurd (congrArg List.length h) hlen⟩
  · intro rootReadable rootEntries rootPath m i f hget hbase hprev
    have hfind := find?_first_hit
      (fun f => basenameNoJac f == (moduleSegments m).getLast?.getD "")
      (getAllJacFiles rootPath rootReadable rootEntries) i f hget
      (by simpa using hbase) hprev
    simp [searchJacFileRecursively, hfind]
  · intro rootReadable rootEntries rootPath m hall
    have hnone : (getAllJacFiles rootPath rootReadable rootEntries).find?
        (fun f => basenameNoJac f == (moduleSegments m).getLast?.getD "") = none :=
      List.find?_eq_none.mpr (fun f hf => by simpa using hall f hf)
    simp [searchJacFileRecursively, hnone]

/-- Witness for C6: a workspace with `pkg/mod.jac` and a decoy, the module
`pkg.mod` — the scan returns the decoy-free basename hit; and the structure
check rejects a longer path and accepts only the exact one. -/
theorem recursive_scan_basename_then_structure_witness :
    searchJacFileRecursively true
      [FsEntry.dir "pkg" true [FsEntry.file "mod.jac"]] ["ws"] "pkg.mod" =
      some ["ws", "pkg", "mod.jac"] ∧
    pathMatchesModule ["extra", "pkg", "mod"] ["pkg", "mod"] = false ∧
    pathMatchesModule ["pkg", "mod"] ["pkg", "mod"] = true := by
  have hfiles : getAllJacFiles ["ws"]
      true [FsEntry.dir "pkg" true [FsEntry.file "mod.jac"]] =
      [["ws", "pkg", "mod.jac"]] := by
    simp [getAllJacFiles, jacFilesOfEntries, skipDirs, strEndsWith]
    decide
  refine ⟨?_, ?_, ?_⟩
  · exact recursive_scan_basename_then_structure.2.1 true
      [FsEntry.dir "pkg" true [FsEntry.file "mod.jac"]] ["ws"] "pkg.mod" 0
      ["ws", "pkg", "mod.jac"]
      (by rw [hfiles]; rfl) (by decide) (by simp)
  · by_contra hfalse
    simp only [Bool.not_eq_false] at hfalse
    exact absurd ((recursive_scan_basename_then_structure.1
      ["extra", "pkg", "mod"] ["pkg", "mod"]).mp hfalse) (by decide)
  · exact (recursive_scan_basename_then_structure.1
      ["pkg", "mod"] ["pkg", "mod"]).mpr rfl

/-- The entry loop of the scan distributes over list append. -/
theorem jacFilesOfEntries_append (p : FsPath) (l₁ l₂ : List FsEntry) :
    jacFilesOfEntries p (l₁ ++ l₂) =
      jacFilesOfEntries p l₁ ++ jacFilesOfEntries p l₂ := by
  induction l₁ with
  | nil => simp [jacFilesOfEntries]
  | cons e rest ih =>
    cases e <;> simp [jacFilesOfEntries, ih, List.append_assoc]

/-- C8.  A filesystem error in one directory is contained: the unreadable
directory contributes nothing and the scan continues over the remaining
entries; an unreadable workspace root degrades the whole scan to `none`;
and `resolveJacModule` then returns `none` rather than failing — by
construction no exception can escape it, its result type is an `Option`. -/
theorem scan_errors_contained :
    (∀ (p : FsPath) (pre post : List FsEntry) (name : String) (cs : List FsEntry),
      jacFilesOfEntries p (pre ++ FsEntry.dir name false cs :: post) =
        jacFilesOfEntries p pre ++ jacFilesOfEntries p post) ∧
    (∀ (rootEntries : List FsEntry) (rootPath : FsPath) (m : String),
      searchJacFileRecursively false rootEntries rootPath m = none) ∧
    (∀ (onDisk : FsPath → Bool) (rootEntries : List FsEntry)
        (docDir wsRoot : FsPath) (m : String),
      (∀ c ∈ searchPathsFor docDir wsRoot m, onDisk c = false) →
      resolveJacModule onDisk false rootEntries docDir wsRoot m = none) := by
  have hscan : ∀ (rootEntries : List FsEntry) (rootPath : FsPath) (m : String),
      searchJacFileRecursively false rootEntries rootPath m = none := by
    intro rootEntries rootPath m
    simp [searchJacFileRecursively, getAllJacFiles]
  refine ⟨?_, hscan, ?_⟩
  · intro p pre post name cs
    rw [jacFilesOfEntries_append]
    have hdir : jacFilesOfEntries p (FsEntry.dir name false cs :: post) =
        jacFilesOfEntries p post := by
      simp [jacFilesOfEntries, getAllJacFiles]
    rw [hdir]
  · intro onDisk rootEntries docDir wsRoot m hall
    have hnone : (searchPathsFor docDir wsRoot m).find? onDisk = none :=
      List.find?_eq_none.mpr (fun c hc => by simp [hall c hc])
    simp [resolveJacModule, hnone, hscan]

/-- Witness for C8: an unreadable directory in the middle of the workspace
is skipped while its siblings are still scanned, and resolution against an
unreadable root returns `none` instead of failing. -/
theorem scan_errors_contained_witness :
    jacFilesOfEntries ["ws"]
      ([FsEntry.file "a.jac"] ++
        FsEntry.dir "secret" false [FsEntry.file "x.jac"] ::
        [FsEntry.file "b.jac"]) = [["ws", "a.jac"], ["ws", "b.jac"]] ∧
    resolveJacModule (fun _ => false) false [] ["d"] ["ws"] "pkg.mod" = none := by
  constructor
  · rw [scan_errors_contained.1]
    simp only [jacFilesOfEntries]
    decide
  · exact scan_errors_contained.2.2 (fun _ => false) [] ["d"] ["ws"] "pkg.mod"
      (fun c _ => rfl)

/-! ## Theorems: import parsing (C7) -/

/-- C7 (evaluation of the code at its failing input).  On the line
`import im` with the cursor at character 7 — squarely inside the module
segment `im` — the parser returns no match: `lineText.indexOf("im")` finds
the first occurrence of `"im"` inside the keyword `import` (position 0)
instead of the module's own position 7, so the cursor-range check fails in
every pattern.  The same click resolves once the module text no longer
occurs earlier in the line. -/
theorem matchImportStatement_indexOf_bug :
    matchImportStatement "import im".toList 7 = none ∧
    matchImportStatement "import xy".toList 7 = some "xy".toList ∧
    jsIndexOf "import im".toList "im".toList 0 = 0 := by
  refine ⟨by decide, by decide, by decide⟩

/-! ## Theorems: tokenization (C10) -/

/-- Unfolding `digitsRec` below ten. -/
theorem digitsRec_lt (n : Nat) (h : n < 10) :
    digitsRec n = [Nat.digitChar n] := by
  rw [digitsRec, dif_pos h]

/-- Unfolding `digitsRec` at ten and above. -/
theorem digitsRec_ge (n : Nat) (h : ¬ n < 10) :
    digitsRec n = digitsRec (n / 10) ++ [Nat.digitChar (n % 10)] := by
  rw [digitsRec, dif_neg h]

/-- Digit characters of small values are decimal digits. -/
theorem digitChar_isDigit (d : Nat) (h : d < 10) :
    (Nat.digitChar d).isDigit = true := by
  interval_cases d <;> decide

/-- Every character of `digitsRec n` is a decimal digit. -/
theorem digitsRec_all_digit (n : Nat) :
    ∀ c ∈ digitsRec n, c.isDigit = true := by
  induction n using Nat.strong_induction_on with
  | _ n ih =>
    by_cases h : n < 10
    · rw [digitsRec_lt n h]
      intro c hc
      rw [List.mem_singleton] at hc
      subst hc
      exact digitChar_isDigit n h
    · rw [digitsRec_ge n h]
      intro c hc
      rcases List.mem_append.mp hc with h1 | h1
      · exact ih (n / 10) (Nat.div_lt_self (by omega) (by omega)) c h1
      · rw [List.mem_singleton] at h1
        subst h1
        exact digitChar_isDigit (n % 10) (Nat.mod_lt n (by omega))

/-- Reading small digits back. -/
theorem charDigitVal_digitChar (d : Nat) (h : d < 10) :
    charDigitVal (Nat.digitChar d) = d := by
  interval_cases d <;> decide

/-- `digitsValFrom` decodes `digitsRec` positionally. -/
theorem digitsValFrom_digitsRec (n : Nat) :
    ∀ a : Nat, digitsValFrom a (digitsRec n) =
      a * 10 ^ (digitsRec n).length + n := by
  induction n using Nat.strong_induction_on with
  | _ n ih =>
    intro a
    by_cases h : n < 10
    · rw [digitsRec_lt n h]
      simp [digitsValFrom, charDigitVal_digitChar n h]
    · rw [digitsRec_ge n h]
      rw [digitsValFrom, List.foldl_append]
      have hinner : List.foldl (fun acc c => acc * 10 + charDigitVal c) a
          (digitsRec (n / 10)) =
          a * 10 ^ (digitsRec (n / 10)).length + n / 10 :=
        ih (n / 10) (Nat.div_lt_self (by omega) (by omega)) a
      rw [hinner]
      simp only [List.foldl_cons, List.foldl_nil,
        List.length_append, List.length_singleton]
      rw [charDigitVal_digitChar (n % 10) (Nat.mod_lt n (by omega))]
      rw [pow_succ]
      have hmd : n % 10 + 10 * (n / 10) = n := Nat.mod_add_div n 10
      ring_nf
      omega

/-- `digitsRec` is injective. -/
theorem digitsRec_inj {m n : Nat} (h : digitsRec m = digitsRec n) : m = n := by
  have hm := digitsValFrom_digitsRec m 0
  have hn := digitsValFrom_digitsRec n 0
  rw [h] at hm
  omega

/-- The characters of `Nat.repr` are the digits of `digitsRec`. -/
theorem repr_toList (n : Nat) : (Nat.repr n).toList = digitsRec n := by
  have hcore : ∀ (f k : Nat) (acc : List Char), k < f →
      Nat.toDigitsCore 10 f k acc = digitsRec k ++ acc := by
    intro f
    induction f with
    | zero => intro k acc hk; omega
    | succ f ih =>
      intro k acc hk
      rw [Nat.toDigitsCore]
      by_cases hz : k / 10 = 0
      · have hklt : k < 10 := by omega
        simp only [hz, if_pos]
        rw [digitsRec_lt k hklt, Nat.mod_eq_of_lt hklt]
        rfl
      · have hge : ¬ k < 10 := by
          intro hlt
          exact hz (Nat.div_eq_of_lt hlt)
        simp only [hz, if_neg, not_false_eq_true]
        rw [ih (k / 10) _ (by
          have h1 : k / 10 < k := Nat.div_lt_self (by omega) (by omega)
          omega)]
        rw [digitsRec_ge k hge]
        simp
  have hrepr : Nat.repr n = (digitsRec n).asString := by
    rw [Nat.repr, Nat.toDigits, hcore (n + 1) n [] (Nat.lt_succ_self n)]
    simp
  rw [hrepr]
  exact List.toList_asString _

/-- Splitting a list at a separator occurring in neither left part is
unique. -/
theorem append_cons_inj {α : Type} :
    ∀ (a x : List α) (c : α) (b y : List α), c ∉ a → c ∉ x →
      a ++ c :: b = x ++ c :: y → a = x ∧ b = y := by
  intro a
  induction a with
  | nil =>
    intro x c b y _ hcx h
    cases x with
    | nil => simpa using h
    | cons x0 xs =>
      simp only [List.nil_append, List.cons_append, List.cons.injEq] at h
      exact absurd (h.1 ▸ List.mem_cons_self x0 xs) hcx
  | cons a0 as ih =>
    intro x c b y hca hcx h
    cases x with
    | nil =>
      simp only [List.cons_append, List.nil_append, List.cons.injEq] at h
      exact absurd (h.1 ▸ List.mem_cons_self a0 as) hca
    | cons x0 xs =>
      simp only [List.cons_append, List.cons.injEq] at h
      obtain ⟨rfl, h2⟩ := h
      have hrec := ih xs c b y (fun hmem => hca (List.mem_cons_of_mem _ hmem))
        (fun hmem => hcx (List.mem_cons_of_mem _ hmem)) h2
      exact ⟨by rw [hrec.1], hrec.2⟩

/-- The characters of a location key. -/
theorem locKey_toList (l s e : Nat) :
    (locKey l s e).toList =
      digitsRec l ++ ':' :: (digitsRec s ++ '-' :: digitsRec e) := by
  have h1 : ∀ n : Nat, (Nat.repr n).data = digitsRec n := repr_toList
  simp [locKey, String.toList, String.data_append, h1]

/-- The separator characters are not digits. -/
theorem colon_not_in_digits (n : Nat) : ':' ∉ digitsRec n := by
  intro hm
  exact absurd (digitsRec_all_digit n ':' hm) (by decide)

/-- The dash is not a digit either. -/
theorem dash_not_in_digits (n : Nat) : '-' ∉ digitsRec n := by
  intro hm
  exact absurd (digitsRec_all_digit n '-' hm) (by decide)

/-- The location key `"line:startCol-endCol"` is injective: two distinct
coordinate triples never collide in the `byLocation` map. -/
theorem locKey_inj {l1 s1 e1 l2 s2 e2 : Nat}
    (h : locKey l1 s1 e1 = locKey l2 s2 e2) :
    l1 = l2 ∧ s1 = s2 ∧ e1 = e2 := by
  have h' := congrArg String.toList h
  rw [locKey_toList, locKey_toList] at h'
  obtain ⟨hL, hrest⟩ := append_cons_inj (digitsRec l1) (digitsRec l2) ':' _ _
    (colon_not_in_digits l1) (colon_not_in_digits l2) h'
  obtain ⟨hS, hE⟩ := append_cons_inj (digitsRec s1) (digitsRec s2) '-' _ _
    (dash_not_in_digits s1) (dash_not_in_digits s2) hrest
  exact ⟨digitsRec_inj hL, digitsRec_inj hS, digitsRec_inj hE⟩

/-- With pairwise-distinct keys, looking a token's own key up in the
key-indexed view finds exactly that token. -/
theorem find?_map_key :
    ∀ (tokens : List TokenInfo), (tokens.map tokenKey).Nodup →
      ∀ t ∈ tokens,
        (tokens.map (fun u => (tokenKey u, u))).find?
          (fun kv => kv.1 == tokenKey t) = some (tokenKey t, t) := by
  intro tokens
  induction tokens with
  | nil => intro _ t ht; cases ht
  | cons u rest ih =>
    intro hnd t ht
    rw [List.map_cons, List.nodup_cons] at hnd
    rw [List.map_cons]
    by_cases he : (tokenKey u == tokenKey t) = true
    · rw [List.find?_cons,
        show (((tokenKey u, u) : String × TokenInfo).1 == tokenKey t) = true from he]
      have hkey : tokenKey u = tokenKey t := by simpa using he
      rcases List.mem_cons.mp ht with rfl | hrest
      · rfl
      · exact absurd (hkey ▸ List.mem_map_of_mem tokenKey hrest) hnd.1
    · rw [Bool.not_eq_true] at he
      rw [List.find?_cons,
        show (((tokenKey u, u) : String × TokenInfo).1 == tokenKey t) = false from he]
      rcases List.mem_cons.mp ht with rfl | hrest
      · simp at he
      · exact ih hnd.2 t hrest

/-- `Map.set` with a fresh key appends the new entry. -/
theorem mapSet_fresh (m : List (String × TokenInfo)) (k : String) (v : TokenInfo)
    (hk : ∀ kv ∈ m, kv.1 ≠ k) : mapSet m k v = m ++ [(k, v)] := by
  have hany : m.any (fun kv => kv.1 == k) = false := by
    rw [List.any_eq_false]
    intro kv hkv
    simp [hk kv hkv]
  simp [mapSet, hany]

/-- Raising the line bound of the invariant. -/
theorem ResultInv_mono {n m : Nat} (h : n ≤ m) (r : TokenizeResult)
    (hr : ResultInv n r) : ResultInv m r := by
  obtain ⟨hb, hnd, hwf⟩ := hr
  refine ⟨hb, hnd, fun t ht => ?_⟩
  obtain ⟨h1, h2, h3, h4, h5⟩ := hwf t ht
  exact ⟨h1, h2, le_trans h3 h, h4, h5⟩

/-- The token loop of one line preserves the tokenization invariant,
provided the remaining raw spans are pairwise distinct and collide with
no already-recorded token. -/
theorem recordLineTokens_inv (line : List Char) (n : Nat) (hn : 1 ≤ n) :
    ∀ (raw : List RawToken) (acc : TokenizeResult),
      ResultInv n acc →
      (∀ t ∈ acc.tokens, ∀ u ∈ raw,
        ¬(t.line = n ∧ t.startCol = u.startIndex + 1 ∧
          t.endCol = u.endIndex + 1)) →
      (raw.map (fun u => (u.startIndex, u.endIndex))).Nodup →
      ResultInv n (recordLineTokens line n raw acc) := by
  intro raw
  induction raw with
  | nil =>
    intro acc hacc _ _
    simpa [recordLineTokens] using hacc
  | cons u rest ih =>
    intro acc hacc hfresh hnd
    rw [List.map_cons, List.nodup_cons] at hnd
    obtain ⟨hb, hndk, hwf⟩ := hacc
    by_cases hskip : (jsTrim (jsSubstring line u.startIndex u.endIndex)).isEmpty = true
    · simp only [recordLineTokens, hskip, if_true]
      exact ih acc ⟨hb, hndk, hwf⟩
        (fun t ht u' hu' => hfresh t ht u' (List.mem_cons_of_mem u hu')) hnd.2
    · simp only [recordLineTokens, hskip, if_false, Bool.false_eq_true]
      have hknotin :
          locKey n (u.startIndex + 1) (u.endIndex + 1) ∉ acc.tokens.map tokenKey := by
        intro hmem
        obtain ⟨t, ht, hkeq⟩ := List.mem_map.mp hmem
        have h3 := locKey_inj hkeq
        exact hfresh t ht u (List.mem_cons_self u rest) ⟨h3.1, h3.2.1, h3.2.2⟩
      have hset : mapSet acc.byLocation
          (locKey n (u.startIndex + 1) (u.endIndex + 1))
          { text := jsSubstring line u.startIndex u.endIndex, line := n,
            startCol := u.startIndex + 1, endCol := u.endIndex + 1,
            scopes := u.scopes } =
          acc.byLocation ++ [(locKey n (u.startIndex + 1) (u.endIndex + 1),
            { text := jsSubstring line u.startIndex u.endIndex, line := n,
              startCol := u.startIndex + 1, endCol := u.endIndex + 1,
              scopes := u.scopes })] := by
        apply mapSet_fresh
        intro kv hkv hkeq
        rw [hb] at hkv
        obtain ⟨t, ht, rfl⟩ := List.mem_map.mp hkv
        exact hknotin (hkeq ▸ List.mem_map_of_mem tokenKey ht)
      rw [hset]
      apply ih
      · refine ⟨?_, ?_, ?_⟩
        · simp only [List.map_append, List.map_cons, List.map_nil, hb]
          rfl
        · simp only [List.map_append, List.map_cons, List.map_nil]
          rw [List.nodup_append]
          refine ⟨hndk, List.nodup_singleton _, ?_⟩
          intro k hk1 hk2
          rw [List.mem_singleton] at hk2
          subst hk2
          exact hknotin hk1
        · intro t ht
          rcases List.mem_append.mp ht with hold | hnew
          · exact hwf t hold
          · rw [List.mem_singleton] at hnew
            subst hnew
            refine ⟨by simpa using hskip, hn, le_refl n,
              by show 1 ≤ u.startIndex + 1; omega,
              by show 1 ≤ u.endIndex + 1; omega⟩
      · intro t ht u' hu'
        rcases List.mem_append.mp ht with hold | hnew
        · exact hfresh t hold u' (List.mem_cons_of_mem u hu')
        · rw [List.mem_singleton] at hnew
          subst hnew
          rintro ⟨_, h1, h2⟩
          apply hnd.1
          have hpair : (u.startIndex, u.endIndex) =
              (u'.startIndex, u'.endIndex) := by
            simp only at h1 h2
            exact Prod.ext (by omega) (by omega)
          rw [hpair]
          exact List.mem_map_of_mem _ hu'
      · exact hnd.2

/-- The line loop preserves the tokenization invariant. -/
theorem tokenizeLinesFrom_inv {σ : Type} (g : TmGrammar σ)
    (hg : ∀ (line : List Char) (st : σ),
      (((g.tokenizeLine line st).1).map (fun u => (u.startIndex, u.endIndex))).Nodup) :
    ∀ (lines : List (List Char)) (k : Nat) (st : σ) (acc : TokenizeResult),
      ResultInv k acc →
      ∃ n, ResultInv n (tokenizeLinesFrom g lines k st acc) := by
  intro lines
  induction lines with
  | nil =>
    intro k st acc hacc
    exact ⟨k, by simpa [tokenizeLinesFrom] using hacc⟩
  | cons line rest ihl =>
    intro k st acc hacc
    simp only [tokenizeLinesFrom]
    apply ihl (k + 1) (g.tokenizeLine line st).2
    apply recordLineTokens_inv line (k + 1) (by omega) _ acc
      (ResultInv_mono (by omega) acc hacc) ?_ (hg line st)
    intro t ht u' hu'
    rintro ⟨hline, _, _⟩
    have hle := (hacc.2.2 t ht).2.2.1
    omega

/-- C10.  For every content and every grammar whose per-line raw tokens
carry pairwise-distinct spans (as TextMate tokenizers produce), every token
in the `tokens` array has non-whitespace text and 1-based line/column
coordinates; the `byLocation` map holds only (non-whitespace) tokens of the
array; and the location-key round trip holds: `getTokenByLocation` at a
token's own coordinates returns exactly that token. -/
theorem tokenizeContent_wellformed_and_indexed :
    ∀ (σ : Type) (g : TmGrammar σ) (content : List Char),
      (∀ (line : List Char) (st : σ),
        (((g.tokenizeLine line st).1).map (fun u => (u.startIndex, u.endIndex))).Nodup) →
      (∀ t ∈ (tokenizeContent g content).tokens,
        (jsTrim t.text).isEmpty = false ∧
          1 ≤ t.line ∧ 1 ≤ t.startCol ∧ 1 ≤ t.endCol) ∧
      (∀ kv ∈ (tokenizeContent g content).byLocation,
        kv.2 ∈ (tokenizeContent g content).tokens ∧
          (jsTrim kv.2.text).isEmpty = false) ∧
      (∀ t ∈ (tokenizeContent g content).tokens,
        getTokenByLocation (tokenizeContent g content) t.line t.startCol t.endCol =
          some t) := by
  intro σ g content hg
  obtain ⟨n, hb, hndk, hwf⟩ := tokenizeLinesFrom_inv g hg (splitOnChar '\n' content)
    0 g.initial { byLocation := [], tokens := [] } ⟨rfl, by simp, by simp⟩
  refine ⟨?_, ?_, ?_⟩
  · intro t ht
    obtain ⟨h1, h2, _, h4, h5⟩ := hwf t ht
    exact ⟨h1, h2, h4, h5⟩
  · intro kv hkv
    rw [show (tokenizeContent g content).byLocation =
      (tokenizeContent g content).tokens.map (fun t => (tokenKey t, t)) from hb] at hkv
    obtain ⟨t, ht, rfl⟩ := List.mem_map.mp hkv
    exact ⟨ht, (hwf t ht).1⟩
  · intro t ht
    have hfind := find?_map_key (tokenizeContent g content).tokens hndk t ht
    rw [getTokenByLocation,
      show (tokenizeContent g content).byLocation =
        (tokenizeContent g content).tokens.map (fun t => (tokenKey t, t)) from hb]
    rw [show locKey t.line t.startCol t.endCol = tokenKey t from rfl, hfind]
    rfl

/-- Witness for C10: a concrete grammar and a one-line content; the token
recorded for the span `[0,2)` (text `ab`) is found again by its own
location key. -/
theorem tokenizeContent_wellformed_and_indexed_witness :
    getTokenByLocation (tokenizeContent demoGrammar "ab cdef".toList) 1 1 3 =
      some demoToken := by
  have h := tokenizeContent_wellformed_and_indexed Unit demoGrammar "ab cdef".toList
    (fun line st => by
      show ([(0, 2), (2, 3), (3, 7)] : List (Nat × Nat)).Nodup
      decide)
  have ht : demoToken ∈ (tokenizeContent demoGrammar "ab cdef".toList).tokens := by
    decide
  exact h.2.2 demoToken ht

end JacVscode
